import Mathlib

/-!
Verification of the dom-refs reference-indexing engine.

The development shallowly embeds the core of the repository:
the nested Path Store (`RefsObject` in the source), the element-to-paths
Reverse Index (`reverseMap`, a `WeakMap<Element, string[]>`), the
navigation primitives `setNestedValue` / `appendNestedArray`, removal
(`removeElement`), the element classifier (`processElement`), and the
event-emitting variant (`watchRefs`).

Modelling conventions, stated once here:
* DOM elements are identified by reference; the model uses a `Nat` identity.
* A JavaScript plain object is an insertion-ordered association list from
  string keys to values; `delete` removes the binding, assignment replaces
  in place or appends a fresh binding at the end.
* `path.split "."` and the comma split of the array attribute are modelled
  character-exactly by `splitOnCharL` (JavaScript `"".split(sep)` yields
  `[""]`, as does the model).
* In the source the intermediate-segment test
  `!cur[k] || !(cur[k] instanceof Object) || Array.isArray(cur[k])` does
  NOT fire for a DOM element (an element is an `Object` instance), so the
  walk descends into the element object itself and every later read or
  write lands on the element's own expando properties, outside the Path
  Store.  The model records the Path Store only: such a walk leaves the
  store unchanged, and later lookups along it are absent, which matches
  the source for elements whose properties were not previously written by
  these same operations and for path segments that are not built-in DOM
  property names (the walk of `removeElement` likewise descends into
  non-node values with plain property reads; the model returns absence
  there, matching non-numeric segments).
-/

namespace DomRefs

/-- Character-level split, mirroring JavaScript `String.prototype.split`
with a one-character separator: the result is always nonempty and separators
delimit (possibly empty) chunks. -/
def splitOnCharL (c : Char) : List Char → List (List Char)
  | [] => [[]]
  | a :: rest =>
    if a = c then [] :: splitOnCharL c rest
    else
      match splitOnCharL c rest with
      | s :: ss => (a :: s) :: ss
      | [] => [[a]]

/-- Rejoin chunks with the separator character; inverse of `splitOnCharL`. -/
def joinCharL (c : Char) : List (List Char) → List Char
  | [] => []
  | [s] => s
  | s :: ss => s ++ c :: joinCharL c ss

/-- The segment list of a dot-joined path, mirroring `path.split "."`. -/
def pathKeys (p : String) : List String :=
  (splitOnCharL '.' p.data).map String.mk

/-- JavaScript `String.prototype.trim`: strip leading and trailing whitespace. -/
def trimS (s : String) : String :=
  String.mk (((s.data.dropWhile Char.isWhitespace).reverse.dropWhile Char.isWhitespace).reverse)

/-- A value of the Path Store (`RefsObject` in the source): a single element
reference, an ordered collection of element references, or a nested node.
Elements are identified by `Nat` reference identity. -/
inductive Value where
  | elem : Nat → Value
  | arr : List Nat → Value
  | node : List (String × Value) → Value
deriving Repr

/-- A Path Store node: a JavaScript plain object as an insertion-ordered
association list. -/
abbrev Obj := List (String × Value)

/-- Property read `o[k]`: first binding wins, `none` models `undefined`. -/
def olookup (m : Obj) (k : String) : Option Value :=
  match m with
  | [] => none
  | (k', v) :: rest => if k = k' then some v else olookup rest k

/-- Property write `o[k] = v`: replace the existing binding in place, else
append a fresh binding (JavaScript key insertion order). -/
def oinsert (m : Obj) (k : String) (v : Value) : Obj :=
  match m with
  | [] => [(k, v)]
  | (k', v') :: rest => if k = k' then (k, v) :: rest else (k', v') :: oinsert rest k v

/-- Property removal `delete o[k]`. -/
def oerase (m : Obj) (k : String) : Obj :=
  match m with
  | [] => []
  | (k', v') :: rest => if k = k' then rest else (k', v') :: oerase rest k

/-- The walk of `setNestedValue` (src/index.ts:20-48, part_001:23-50).
At each intermediate segment the source tests
`!cur[k] || !(cur[k] instanceof Object) || Array.isArray(cur[k])`:
absent and collection values are overwritten with a fresh node, a node is
descended into, and an element also passes the `instanceof Object` test, so
the source descends into the element object itself; from then on every
write lands on the element, leaving the store unchanged (see the header
comment).  The final segment is assigned unconditionally. -/
def setWalk (m : Obj) (keys : List String) (v : Value) : Obj :=
  match keys with
  | [] => m
  | [k] => oinsert m k v
  | k :: rest =>
    match olookup m k with
    | some (.node m') => oinsert m k (.node (setWalk m' rest v))
    | some (.elem _) => m
    | _ => oinsert m k (.node (setWalk [] rest v))

/-- The walk of `appendNestedArray` (src/index.ts:57-86, part_001:52-80):
identical intermediate handling; at the final segment a non-collection
value is first replaced by a fresh empty collection, then the element is
pushed (no membership check). -/
def appendWalk (m : Obj) (keys : List String) (e : Nat) : Obj :=
  match keys with
  | [] => m
  | [k] =>
    match olookup m k with
    | some (.arr xs) => oinsert m k (.arr (xs ++ [e]))
    | _ => oinsert m k (.arr [e])
  | k :: rest =>
    match olookup m k with
    | some (.node m') => oinsert m k (.node (appendWalk m' rest e))
    | some (.elem _) => m
    | _ => oinsert m k (.node (appendWalk [] rest e))

/-- One path of `removeElement` (part_001:92-123, src/index.ts:102-126).
The walk returns the updated store and whether an actual removal fired
(the leaf was exactly the element, or the element was spliced out of the
collection, the leaf being deleted when the collection empties).  The
`Bool` is also exactly `allPathsProcessed` for this path in part_001: every
non-firing case sets that flag to `false` there. -/
def removeWalk (m : Obj) (keys : List String) (el : Nat) : Obj × Bool :=
  match keys with
  | [] => (m, false)
  | [k] =>
    match olookup m k with
    | some (.elem e) => if e = el then (oerase m k, true) else (m, false)
    | some (.arr xs) =>
      if el ∈ xs then
        let xs' := xs.erase el
        if xs' = [] then (oerase m k, true) else (oinsert m k (.arr xs'), true)
      else (m, false)
    | _ => (m, false)
  | k :: rest =>
    match olookup m k with
    | some (.node m') =>
      let r := removeWalk m' rest el
      (oinsert m k (.node r.1), r.2)
    | none => (m, false)
    | _ => (m, false)

/-- Structural resolution of a segment list in the Path Store: intermediate
segments must hold nodes.  This is also the walk of the `remainingPaths`
check (part_001:126-135, 546-558): that walk guards only on truthiness, but
descending into an element or collection there makes every later read
absent, so the outcome coincides (header comment). -/
def resolve (m : Obj) (keys : List String) : Option Value :=
  match keys with
  | [] => none
  | [k] => olookup m k
  | k :: rest =>
    match olookup m k with
    | some (.node m') => resolve m' rest
    | _ => none

/-- The store holds element `el` at this segment list: the leaf is exactly
that single value, or a collection containing it. -/
def occursL (m : Obj) (keys : List String) (el : Nat) : Bool :=
  match resolve m keys with
  | some (.elem e) => e = el
  | some (.arr xs) => el ∈ xs
  | _ => false

/-- `occursL` at a dot-joined path string. -/
def occursS (m : Obj) (p : String) (el : Nat) : Bool :=
  occursL m (pathKeys p) el

/-- The Reverse Index: `WeakMap<Element, string[]>` as an association list
from element identity to its recorded path list. -/
abbrev Rev := List (Nat × List String)

def rlookup (r : Rev) (e : Nat) : Option (List String) :=
  match r with
  | [] => none
  | (e', ps) :: rest => if e = e' then some ps else rlookup rest e

def rinsert (r : Rev) (e : Nat) (ps : List String) : Rev :=
  match r with
  | [] => [(e, ps)]
  | (e', ps') :: rest => if e = e' then (e, ps) :: rest else (e', ps') :: rinsert rest e ps

def rdelete (r : Rev) (e : Nat) : Rev :=
  match r with
  | [] => []
  | (e', ps') :: rest => if e = e' then rest else (e', ps') :: rdelete rest e

/-- The recorded path list of an element (empty when absent, matching
`reverseMap.get(el) || []`). -/
def revPaths (r : Rev) (e : Nat) : List String :=
  (rlookup r e).getD []

/-- The reverse-map update shared by `setNestedValue` and
`appendNestedArray` (part_001:43-49, 75-79): fetch the list (default
empty), push the path only when not already included, and store it back. -/
def revAdd (r : Rev) (e : Nat) (p : String) : Rev :=
  let ps := revPaths r e
  if p ∈ ps then r else rinsert r e (ps ++ [p])

/-- The shared Path Store / Reverse Index pair. -/
structure State where
  obj : Obj
  rev : Rev
deriving Repr

def initState : State := ⟨[], []⟩

/-- `setNestedValue` (part_001:23-50): walk and set, then record the path
for the element. -/
def setNestedValue (s : State) (p : String) (e : Nat) : State :=
  ⟨setWalk s.obj (pathKeys p) (.elem e), revAdd s.rev e p⟩

/-- `appendNestedArray` (part_001:52-80): walk and push, then record the
path for the element. -/
def appendNestedArray (s : State) (p : String) (e : Nat) : State :=
  ⟨appendWalk s.obj (pathKeys p) e, revAdd s.rev e p⟩

/-- The `paths.forEach` pass of `removeElement` (part_001:92-123), walking
the recorded paths left to right; the `Bool` is `allPathsProcessed`: it
ends `true` exactly when every path fired. -/
def removeAll (o : Obj) (el : Nat) : List String → Obj × Bool
  | [] => (o, true)
  | p :: ps =>
    let w := removeWalk o (pathKeys p) el
    let r := removeAll w.1 el ps
    (r.1, w.2 && r.2)

/-- `removeElement` (part_001:82-141): look up the recorded paths, walk
each, and drop the reverse entry only when every path processed cleanly and
no recorded path still resolves to the element (`remainingPaths`,
part_001:126-139). -/
def removeElement (s : State) (el : Nat) : State :=
  match rlookup s.rev el with
  | none => s
  | some paths =>
    if paths = [] then s
    else
      let r := removeAll s.obj el paths
      let remaining := paths.any fun p => occursL r.1 (pathKeys p) el
      if r.2 then
        if remaining then ⟨r.1, s.rev⟩ else ⟨r.1, rdelete s.rev el⟩
      else ⟨r.1, s.rev⟩

/-- `removeElement` of src/index.ts:94-130: same per-path walks, but the
reverse entry is dropped unconditionally afterwards. -/
def removeElementBasic (s : State) (el : Nat) : State :=
  match rlookup s.rev el with
  | none => s
  | some paths => ⟨(removeAll s.obj el paths).1, rdelete s.rev el⟩

/-- The naming configuration (`RefsOptions` defaults
`data-ref` / `data-ref-array` / `id`, part_001:16-21, 165). -/
structure Cfg where
  refAttr : String
  refArrayAttr : String
  idAttr : String

/-- A DOM element as the classifier sees it: its reference identity, its
attribute map (`getAttribute` returns `none` when absent) and its property
map (the `idAttr` fallback reads `(element as any)[idAttr]`). -/
structure Elem where
  eid : Nat
  attrs : List (String × String)
  props : List (String × String)

def alookup (m : List (String × String)) (k : String) : Option String :=
  match m with
  | [] => none
  | (k', v) :: rest => if k = k' then some v else alookup rest k

/-- JavaScript truthiness of a string read: `none` (null / undefined) and
the empty string are falsy, so `if (x)` runs only for present nonempty
values. -/
def truthy (o : Option String) : Option String :=
  match o with
  | some v => if v = "" then none else some v
  | none => none

/-- The token list of the array-path attribute value: split on commas, trim
each token, keep nonempty tokens (part_001:172-177; the event variant
filters with `.filter(Boolean)`, the same set). -/
def arrTokens (v : String) : List String :=
  (((splitOnCharL ',' v.data).map String.mk).map trimS).filter (fun t => t ≠ "")

/-- A registration action of the classifier. -/
inductive Action where
  | set : String → Action
  | append : String → Action
deriving Repr, DecidableEq

/-- The element classifier, the action trace of `processElement`
(part_001:169-190, src/index.ts:141-162): array-attribute tokens each emit
an append action; then a truthy single-path attribute emits one set action
and returns, else a truthy fallback identifier emits one set action. -/
def classify (cfg : Cfg) (el : Elem) : List Action :=
  let arrActs :=
    match truthy (alookup el.attrs cfg.refArrayAttr) with
    | some v => (arrTokens v).map Action.append
    | none => []
  match truthy (alookup el.attrs cfg.refAttr) with
  | some d => arrActs ++ [Action.set d]
  | none =>
    match truthy (alookup el.props cfg.idAttr) with
    | some i => arrActs ++ [Action.set i]
    | none => arrActs

def applyAction (eid : Nat) (s : State) : Action → State
  | .set p => setNestedValue s p eid
  | .append p => appendNestedArray s p eid

/-- `processElement` applies its actions in emission order (the source
interleaves classification and registration; classification reads only the
element, so the factoring is exact). -/
def processElement (cfg : Cfg) (s : State) (el : Elem) : State :=
  (classify cfg el).foldl (applyAction el.eid) s

/-- Modelled from the spec: the host query primitive
`queryAll(scope, selector)` is not part of this repository; per the
interface contract of section 6 it must not throw on a malformed selector
and yields the empty sequence instead, so a selector is either malformed
or an element predicate. -/
inductive Selector where
  | malformed : Selector
  | valid : (Elem → Bool) → Selector

/-- Modelled from the spec: `queryAll` over the scoped element sequence. -/
def queryAll (dom : List Elem) : Selector → List Elem
  | .malformed => []
  | .valid f => dom.filter f

/-- `createRefs` (part_001:161-205): query the working element set, then
classify and register each match in document order, starting from an empty
Path Store and Reverse Index. -/
def buildRefs (dom : List Elem) (sel : Selector) (cfg : Cfg) : State :=
  (queryAll dom sel).foldl (processElement cfg) initState

/-- A registration or unregistration operation, as issued by the indexer
and the synchronizer. -/
inductive Op where
  | set : String → Nat → Op
  | append : String → Nat → Op
  | remove : Nat → Op

def stepOp (s : State) : Op → State
  | .set p e => setNestedValue s p e
  | .append p e => appendNestedArray s p e
  | .remove e => removeElement s e

def applyOps (s : State) (ops : List Op) : State :=
  ops.foldl stepOp s

/-- Modelled from the spec: the host mutation subscription
(`observe` / `disconnect`, section 6) is not part of this repository; a
watcher handle is its active flag plus the shared state, a delivered batch
is the operation list the callback would apply, and a disconnected watcher
receives no further deliveries. -/
structure Watcher where
  active : Bool
  st : State

def deliverBatch (w : Watcher) (batch : List Op) : Watcher :=
  if w.active then ⟨true, applyOps w.st batch⟩ else w

/-- `stop` (part_001:291, src/index.ts:240-242): disconnect the observer. -/
def stopWatcher (w : Watcher) : Watcher :=
  ⟨false, w.st⟩

/-- A notification of the event-emitting variant (`RefEventsEnum`,
part_001:311-314), carrying the element and the path. -/
inductive Ev where
  | added : Nat → String → Ev
  | removed : Nat → String → Ev
deriving Repr, DecidableEq

/-- One array-token step of the event variant `watchRefs.processElement`
(part_001:459-471): append into the store, then push the path and dispatch
an added notification only when the path is not yet recorded. -/
def arrStepW (eid : Nat) (acc : State × List Ev) (k : String) : State × List Ev :=
  let obj' := appendWalk acc.1.obj (pathKeys k) eid
  let ps := revPaths acc.1.rev eid
  if k ∈ ps then (⟨obj', acc.1.rev⟩, acc.2)
  else (⟨obj', rinsert acc.1.rev eid (ps ++ [k])⟩, acc.2 ++ [Ev.added eid k])

/-- The single-value tail step of the event variant (part_001:474-503):
set into the store, then push the path and dispatch an added notification
only when the path is not yet recorded. -/
def setStepW (eid : Nat) (acc : State × List Ev) (d : String) : State × List Ev :=
  let obj' := setWalk acc.1.obj (pathKeys d) (.elem eid)
  let ps := revPaths acc.1.rev eid
  if d ∈ ps then (⟨obj', acc.1.rev⟩, acc.2)
  else (⟨obj', rinsert acc.1.rev eid (ps ++ [d])⟩, acc.2 ++ [Ev.added eid d])

/-- `watchRefs.processElement` (part_001:452-504), returning the updated
state and the dispatched notifications in dispatch order. -/
def processElementW (cfg : Cfg) (el : Elem) (s : State) : State × List Ev :=
  let arrKeys :=
    match truthy (alookup el.attrs cfg.refArrayAttr) with
    | some v => arrTokens v
    | none => []
  let acc := arrKeys.foldl (arrStepW el.eid) (s, [])
  match truthy (alookup el.attrs cfg.refAttr) with
  | some d => setStepW el.eid acc d
  | none =>
    match truthy (alookup el.props cfg.idAttr) with
    | some i => setStepW el.eid acc i
    | none => acc

/-- The `paths.forEach` pass of the event variant removal (part_001:510-544):
walk every path left to right, dispatching a removed notification exactly
when the walk fired (the leaf was the element, or the splice succeeded). -/
def removeAllW (o : Obj) (el : Nat) : List String → Obj × List Ev
  | [] => (o, [])
  | p :: ps =>
    let w := removeWalk o (pathKeys p) el
    let r := removeAllW w.1 el ps
    (r.1, (if w.2 then [Ev.removed el p] else []) ++ r.2)

/-- `watchRefs.removeElement` (part_001:506-563): walk every recorded path,
then drop the reverse entry when no recorded path still resolves to the
element (this variant has no `allPathsProcessed` gate). -/
def removeElementW (s : State) (el : Nat) : State × List Ev :=
  match rlookup s.rev el with
  | none => (s, [])
  | some paths =>
    if paths = [] then (s, [])
    else
      let r := removeAllW s.obj el paths
      let remaining := paths.any fun p => occursL r.1 (pathKeys p) el
      (⟨r.1, if remaining then s.rev else rdelete s.rev el⟩, r.2)

/-- The paths of a sequential removal pass at which the store, at that
moment, still holds the element (single value or collection membership);
used to characterise which removed notifications fire. -/
def firedSeq (o : Obj) (ps : List String) (el : Nat) : List String :=
  match ps with
  | [] => []
  | p :: rest =>
    let o' := (removeWalk o (pathKeys p) el).1
    if occursL o (pathKeys p) el then p :: firedSeq o' rest el
    else firedSeq o' rest el

/-- Key `k` is unbound in the node. -/
def onokey (m : Obj) (k : String) : Bool :=
  match m with
  | [] => true
  | (k', _) :: rest => if k = k' then false else onokey rest k

mutual
/-- Well-formed value: every nested node has distinct keys (true of every
JavaScript object, whose keys are unique by construction). -/
def wfV : Value → Bool
  | .elem _ => true
  | .arr _ => true
  | .node m => wfO m
/-- Well-formed node: distinct keys at this level and well-formed values. -/
def wfO : Obj → Bool
  | [] => true
  | (k, v) :: rest => onokey rest k && wfV v && wfO rest
end

/-- Element `e` is unbound in the reverse index tail. -/
def rnokey (r : Rev) (e : Nat) : Bool :=
  match r with
  | [] => true
  | (e', _) :: rest => if e = e' then false else rnokey rest e

/-- Well-formed reverse index: one entry per element (true of a `WeakMap`). -/
def rwf (r : Rev) : Bool :=
  match r with
  | [] => true
  | (e, _) :: rest => rnokey rest e && rwf rest

/-- No intermediate segment of the walk currently holds an element, so the
walk of `setNestedValue` / `appendNestedArray` never descends into an
element object. -/
def noElemOnWalk (m : Obj) (keys : List String) : Bool :=
  match keys with
  | [] => true
  | [_] => true
  | k :: rest =>
    match olookup m k with
    | some (.elem _) => false
    | some (.node m') => noElemOnWalk m' rest
    | _ => true

/-- The registration keys that are new with respect to a recorded path
list, processed left to right with the list growing as keys are pushed;
characterises which added notifications fire. -/
def newKeys (ks : List String) (ps : List String) : List String :=
  match ks with
  | [] => []
  | k :: rest => if k ∈ ps then newKeys rest ps else k :: newKeys rest (ps ++ [k])

/-- The append actions of an action list, in order. -/
def appendsOf (acts : List Action) : List String :=
  acts.filterMap fun a =>
    match a with
    | .append p => some p
    | .set _ => none

/-- Modelled from the spec, section 4.2 as written: at each intermediate
segment, a value that is absent, not an intermediate node, or a collection
is overwritten with a fresh empty intermediate node; the final segment is
assigned unconditionally. -/
def specNavSet (m : Obj) (keys : List String) (v : Value) : Obj :=
  match keys with
  | [] => m
  | [k] => oinsert m k v
  | k :: rest =>
    match olookup m k with
    | some (.node m') => oinsert m k (.node (specNavSet m' rest v))
    | _ => oinsert m k (.node (specNavSet [] rest v))

/-- An intermediate value the source repairs: absent or a collection (an
element is an `Object` instance, so the source does not repair it). -/
def repairs : Option Value → Bool
  | none => true
  | some (.arr _) => true
  | some _ => false

/-- Modelled from the amended spec wording for the set walk: an absent or
collection intermediate is overwritten with a fresh empty node; a node is
descended into; an element leaf is descended into as a host object, so the
Path Store is left unchanged from that point on; the final segment is
assigned unconditionally. -/
def specNavSetFix (m : Obj) (keys : List String) (v : Value) : Obj :=
  match keys with
  | [] => m
  | [k] => oinsert m k v
  | k :: rest =>
    if repairs (olookup m k) then oinsert m k (.node (specNavSetFix [] rest v))
    else
      match olookup m k with
      | some (.node m') => oinsert m k (.node (specNavSetFix m' rest v))
      | _ => m

/-- Modelled from the amended spec wording for the append walk: identical
intermediate policy; at the final segment a non-collection value is first
replaced by a fresh empty collection, then the element is appended. -/
def specNavAppendFix (m : Obj) (keys : List String) (e : Nat) : Obj :=
  match keys with
  | [] => m
  | [k] =>
    match olookup m k with
    | some (.arr xs) => oinsert m k (.arr (xs ++ [e]))
    | _ => oinsert m k (.arr [e])
  | k :: rest =>
    if repairs (olookup m k) then oinsert m k (.node (specNavAppendFix [] rest e))
    else
      match olookup m k with
      | some (.node m') => oinsert m k (.node (specNavAppendFix m' rest e))
      | _ => m

/-! ### Split and path lemmas -/

theorem splitOnCharL_ne_nil (c : Char) (l : List Char) : splitOnCharL c l ≠ [] := by
  cases l with
  | nil => simp [splitOnCharL]
  | cons a rest =>
    simp only [splitOnCharL]
    split
    · simp
    · split <;> simp_all

theorem joinCharL_splitOnCharL (c : Char) (l : List Char) :
    joinCharL c (splitOnCharL c l) = l := by
  induction l with
  | nil => simp [splitOnCharL, joinCharL]
  | cons a rest ih =>
    simp only [splitOnCharL]
    by_cases h : a = c
    · subst h
      simp only [if_pos rfl]
      cases hs : splitOnCharL a rest with
      | nil => exact absurd hs (splitOnCharL_ne_nil a rest)
      | cons s ss =>
        rw [hs] at ih
        simp [joinCharL, ih]
    · simp only [if_neg h]
      cases hs : splitOnCharL c rest with
      | nil => exact absurd hs (splitOnCharL_ne_nil c rest)
      | cons s ss =>
        rw [hs] at ih
        cases ss with
        | nil => simp_all [joinCharL]
        | cons t ts => simp_all [joinCharL]

theorem splitOnCharL_injective (c : Char) {l₁ l₂ : List Char}
    (h : splitOnCharL c l₁ = splitOnCharL c l₂) : l₁ = l₂ := by
  have := joinCharL_splitOnCharL c l₁
  rw [h, joinCharL_splitOnCharL] at this
  exact this.symm

theorem pathKeys_injective {p q : String} (h : pathKeys p = pathKeys q) : p = q := by
  have hd : (pathKeys p).map String.data = (pathKeys q).map String.data := by rw [h]
  simp only [pathKeys, List.map_map] at hd
  have hcomp : (String.data ∘ String.mk) = id := funext fun _ => rfl
  rw [hcomp, List.map_id, List.map_id] at hd
  have := splitOnCharL_injective '.' hd
  cases p; cases q; exact congrArg String.mk this

theorem pathKeys_ne_nil (p : String) : pathKeys p ≠ [] := by
  simp only [pathKeys]
  intro h
  exact splitOnCharL_ne_nil '.' p.data (by simpa using h)

/-! ### Association-list lemmas -/

theorem olookup_oinsert_self (m : Obj) (k : String) (v : Value) :
    olookup (oinsert m k v) k = some v := by
  induction m with
  | nil => simp [oinsert, olookup]
  | cons hd tl ih =>
    obtain ⟨k', v'⟩ := hd
    simp only [oinsert]
    by_cases h : k = k'
    · simp [olookup, h]
    · simp [olookup, h, ih]

theorem olookup_oinsert_ne (m : Obj) {k k' : String} (v : Value) (h : k' ≠ k) :
    olookup (oinsert m k v) k' = olookup m k' := by
  induction m with
  | nil => simp [oinsert, olookup, h]
  | cons hd tl ih =>
    obtain ⟨k₀, v₀⟩ := hd
    simp only [oinsert]
    by_cases hk : k = k₀
    · subst hk
      simp [olookup, h]
    · by_cases hk' : k' = k₀ <;> simp [olookup, hk, hk', ih]

theorem olookup_oerase_ne (m : Obj) {k k' : String} (h : k' ≠ k) :
    olookup (oerase m k) k' = olookup m k' := by
  induction m with
  | nil => simp [oerase]
  | cons hd tl ih =>
    obtain ⟨k₀, v₀⟩ := hd
    simp only [oerase]
    by_cases hk : k = k₀
    · subst hk
      simp [olookup, h]
    · by_cases hk' : k' = k₀ <;> simp [olookup, hk, hk', ih]

theorem onokey_olookup {m : Obj} {k : String} (h : onokey m k = true) :
    olookup m k = none := by
  induction m with
  | nil => simp [olookup]
  | cons hd tl ih =>
    obtain ⟨k₀, v₀⟩ := hd
    simp only [onokey] at h
    by_cases hk : k = k₀
    · simp [hk] at h
    · simp only [if_neg hk] at h
      simp [olookup, hk, ih h]

theorem wfO_cons {k : String} {v : Value} {m : Obj} (h : wfO ((k, v) :: m) = true) :
    onokey m k = true ∧ wfV v = true ∧ wfO m = true := by
  simp only [wfO, Bool.and_eq_true] at h
  exact ⟨h.1.1, h.1.2, h.2⟩

theorem olookup_oerase_self {m : Obj} (k : String) (h : wfO m = true) :
    olookup (oerase m k) k = none := by
  induction m with
  | nil => simp [oerase, olookup]
  | cons hd tl ih =>
    obtain ⟨k₀, v₀⟩ := hd
    obtain ⟨hno, hv, htl⟩ := wfO_cons h
    simp only [oerase]
    by_cases hk : k = k₀
    · subst hk
      simp [onokey_olookup hno]
    · simp [olookup, hk, ih htl]

theorem wfV_of_olookup {m : Obj} {k : String} {v : Value}
    (hm : wfO m = true) (h : olookup m k = some v) : wfV v = true := by
  induction m with
  | nil => simp [olookup] at h
  | cons hd tl ih =>
    obtain ⟨k₀, v₀⟩ := hd
    obtain ⟨hno, hv, htl⟩ := wfO_cons hm
    simp only [olookup] at h
    by_cases hk : k = k₀
    · simp only [if_pos hk] at h
      exact Option.some.inj h ▸ hv
    · simp only [if_neg hk] at h
      exact ih htl h

theorem onokey_oinsert {m : Obj} {k k' : String} (v : Value)
    (h : onokey m k' = true) (hne : k' ≠ k) : onokey (oinsert m k v) k' = true := by
  induction m with
  | nil => simp [oinsert, onokey, hne]
  | cons hd tl ih =>
    obtain ⟨k₀, v₀⟩ := hd
    simp only [onokey] at h
    by_cases hk0 : k' = k₀
    · simp [hk0] at h
    · simp only [if_neg hk0] at h
      simp only [oinsert]
      by_cases hk : k = k₀
      · subst hk
        simp [onokey, hne, h]
      · simp [hk, onokey, hk0, ih h]

theorem wfO_oinsert {m : Obj} {v : Value} (k : String)
    (hm : wfO m = true) (hv : wfV v = true) : wfO (oinsert m k v) = true := by
  induction m with
  | nil => simp [oinsert, wfO, onokey, hv]
  | cons hd tl ih =>
    obtain ⟨k₀, v₀⟩ := hd
    obtain ⟨hno, hv₀, htl⟩ := wfO_cons hm
    simp only [oinsert]
    by_cases hk : k = k₀
    · subst hk
      simp [wfO, hno, hv, htl]
    · have : wfO (oinsert tl k v) = true := ih htl
      simp [hk, wfO, hv₀, this, onokey_oinsert v hno (Ne.symm hk)]

theorem onokey_oerase {m : Obj} {k k' : String} (h : onokey m k' = true) :
    onokey (oerase m k) k' = true := by
  induction m with
  | nil => simp [oerase, onokey]
  | cons hd tl ih =>
    obtain ⟨k₀, v₀⟩ := hd
    simp only [onokey] at h
    by_cases hk0 : k' = k₀
    · simp [hk0] at h
    · simp only [if_neg hk0] at h
      simp only [oerase]
      by_cases hk : k = k₀
      · simpa [hk] using h
      · simp [hk, onokey, hk0, ih h]

theorem wfO_oerase {m : Obj} (k : String) (hm : wfO m = true) :
    wfO (oerase m k) = true := by
  induction m with
  | nil => simp [oerase, wfO]
  | cons hd tl ih =>
    obtain ⟨k₀, v₀⟩ := hd
    obtain ⟨hno, hv₀, htl⟩ := wfO_cons hm
    simp only [oerase]
    by_cases hk : k = k₀
    · simpa [hk] using htl
    · simp [hk, wfO, hv₀, ih htl, onokey_oerase hno]

/-! ### Reverse-index lemmas -/

theorem rlookup_rinsert_self (r : Rev) (e : Nat) (ps : List String) :
    rlookup (rinsert r e ps) e = some ps := by
  induction r with
  | nil => simp [rinsert, rlookup]
  | cons hd tl ih =>
    obtain ⟨e₀, ps₀⟩ := hd
    simp only [rinsert]
    by_cases h : e = e₀
    · simp [rlookup, h]
    · simp [rlookup, h, ih]

theorem rlookup_rinsert_ne (r : Rev) {e e' : Nat} (ps : List String) (h : e' ≠ e) :
    rlookup (rinsert r e ps) e' = rlookup r e' := by
  induction r with
  | nil => simp [rinsert, rlookup, h]
  | cons hd tl ih =>
    obtain ⟨e₀, ps₀⟩ := hd
    simp only [rinsert]
    by_cases hk : e = e₀
    · subst hk
      simp [rlookup, h]
    · by_cases hk' : e' = e₀ <;> simp [rlookup, hk, hk', ih]

theorem rlookup_rdelete_ne (r : Rev) {e e' : Nat} (h : e' ≠ e) :
    rlookup (rdelete r e) e' = rlookup r e' := by
  induction r with
  | nil => simp [rdelete]
  | cons hd tl ih =>
    obtain ⟨e₀, ps₀⟩ := hd
    simp only [rdelete]
    by_cases hk : e = e₀
    · subst hk
      simp [rlookup, h]
    · by_cases hk' : e' = e₀ <;> simp [rlookup, hk, hk', ih]

theorem rnokey_rlookup {r : Rev} {e : Nat} (h : rnokey r e = true) :
    rlookup r e = none := by
  induction r with
  | nil => simp [rlookup]
  | cons hd tl ih =>
    obtain ⟨e₀, ps₀⟩ := hd
    simp only [rnokey] at h
    by_cases hk : e = e₀
    · simp [hk] at h
    · simp only [if_neg hk] at h
      simp [rlookup, hk, ih h]

theorem rlookup_rdelete_self {r : Rev} (e : Nat) (h : rwf r = true) :
    rlookup (rdelete r e) e = none := by
  induction r with
  | nil => simp [rdelete, rlookup]
  | cons hd tl ih =>
    obtain ⟨e₀, ps₀⟩ := hd
    simp only [rwf, Bool.and_eq_true] at h
    simp only [rdelete]
    by_cases hk : e = e₀
    · subst hk
      rw [if_pos rfl]
      exact rnokey_rlookup h.1
    · simp [rlookup, hk, ih h.2]

theorem rnokey_rinsert {r : Rev} {e e' : Nat} (ps : List String)
    (h : rnokey r e' = true) (hne : e' ≠ e) : rnokey (rinsert r e ps) e' = true := by
  induction r with
  | nil => simp [rinsert, rnokey, hne]
  | cons hd tl ih =>
    obtain ⟨e₀, ps₀⟩ := hd
    simp only [rnokey] at h
    by_cases hk0 : e' = e₀
    · simp [hk0] at h
    · simp only [if_neg hk0] at h
      simp only [rinsert]
      by_cases hk : e = e₀
      · subst hk
        simp [rnokey, hne, h]
      · simp [hk, rnokey, hk0, ih h]

theorem rwf_rinsert {r : Rev} (e : Nat) (ps : List String) (h : rwf r = true) :
    rwf (rinsert r e ps) = true := by
  induction r with
  | nil => simp [rinsert, rwf, rnokey]
  | cons hd tl ih =>
    obtain ⟨e₀, ps₀⟩ := hd
    simp only [rwf, Bool.and_eq_true] at h
    simp only [rinsert]
    by_cases hk : e = e₀
    · subst hk
      rw [if_pos rfl]
      simp [rwf, h.1, h.2]
    · simp [hk, rwf, ih h.2, rnokey_rinsert ps h.1 (Ne.symm hk)]

theorem rnokey_rdelete {r : Rev} {e e' : Nat} (h : rnokey r e' = true) :
    rnokey (rdelete r e) e' = true := by
  induction r with
  | nil => simp [rdelete, rnokey]
  | cons hd tl ih =>
    obtain ⟨e₀, ps₀⟩ := hd
    simp only [rnokey] at h
    by_cases hk0 : e' = e₀
    · simp [hk0] at h
    · simp only [if_neg hk0] at h
      simp only [rdelete]
      by_cases hk : e = e₀
      · simpa [hk] using h
      · simp [hk, rnokey, hk0, ih h]

theorem rwf_rdelete {r : Rev} (e : Nat) (h : rwf r = true) :
    rwf (rdelete r e) = true := by
  induction r with
  | nil => simp [rdelete, rwf]
  | cons hd tl ih =>
    obtain ⟨e₀, ps₀⟩ := hd
    simp only [rwf, Bool.and_eq_true] at h
    simp only [rdelete]
    by_cases hk : e = e₀
    · simpa [hk] using h.2
    · simp [hk, rwf, ih h.2, rnokey_rdelete h.1]

theorem revPaths_revAdd_self_mem (r : Rev) (e : Nat) (p : String) :
    p ∈ revPaths (revAdd r e p) e := by
  simp only [revAdd, revPaths]
  by_cases h : p ∈ (rlookup r e).getD []
  · simp only [if_pos h]
    exact h
  · simp only [if_neg h, rlookup_rinsert_self, Option.getD_some]
    exact List.mem_append_right _ (List.mem_singleton.mpr rfl)

theorem revPaths_revAdd_mono {r : Rev} {e : Nat} {q : String} (e' : Nat) (p : String)
    (h : q ∈ revPaths r e) : q ∈ revPaths (revAdd r e' p) e := by
  simp only [revPaths] at h
  simp only [revAdd, revPaths]
  by_cases hmem : p ∈ (rlookup r e').getD []
  · simp only [if_pos hmem]
    exact h
  · simp only [if_neg hmem]
    by_cases he : e = e'
    · subst he
      simp only [rlookup_rinsert_self, Option.getD_some]
      exact List.mem_append_left _ h
    · rw [rlookup_rinsert_ne r _ he]
      exact h

theorem rwf_revAdd {r : Rev} (e : Nat) (p : String) (h : rwf r = true) :
    rwf (revAdd r e p) = true := by
  simp only [revAdd, revPaths]
  by_cases hmem : p ∈ (rlookup r e).getD []
  · simp only [if_pos hmem]
    exact h
  · simp only [if_neg hmem]
    exact rwf_rinsert _ _ h

theorem revAdd_entries_ne_nil {r : Rev} (e : Nat) (p : String)
    (h : ∀ e' ps, rlookup r e' = some ps → ps ≠ []) :
    ∀ e' ps, rlookup (revAdd r e p) e' = some ps → ps ≠ [] := by
  intro e' ps hl
  simp only [revAdd, revPaths] at hl
  by_cases hmem : p ∈ (rlookup r e).getD []
  · rw [if_pos hmem] at hl
    exact h e' ps hl
  · rw [if_neg hmem] at hl
    by_cases he : e' = e
    · subst he
      rw [rlookup_rinsert_self] at hl
      simp only [Option.some.injEq] at hl
      subst hl
      simp
    · rw [rlookup_rinsert_ne r _ he] at hl
      exact h e' ps hl

theorem rdelete_entries_ne_nil {r : Rev} (e : Nat)
    (h : ∀ e' ps, rlookup r e' = some ps → ps ≠ []) (hwf : rwf r = true) :
    ∀ e' ps, rlookup (rdelete r e) e' = some ps → ps ≠ [] := by
  intro e' ps hl
  by_cases he : e' = e
  · subst he
    rw [rlookup_rdelete_self _ hwf] at hl
    exact absurd hl (by simp)
  · rw [rlookup_rdelete_ne r he] at hl
    exact h e' ps hl

/-! ### Walk lemmas -/

theorem occursL_nil_keys (m : Obj) (el : Nat) : occursL m [] el = false := by
  simp [occursL, resolve]

theorem occursL_single (m : Obj) (k : String) (el : Nat) :
    occursL m [k] el =
      match olookup m k with
      | some (.elem e) => decide (e = el)
      | some (.arr xs) => decide (el ∈ xs)
      | _ => false := by
  cases h : olookup m k with
  | none => simp [occursL, resolve, h]
  | some v => cases v <;> simp [occursL, resolve, h]

theorem occursL_cons (m : Obj) (k k₂ : String) (rest : List String) (el : Nat) :
    occursL m (k :: k₂ :: rest) el =
      match olookup m k with
      | some (.node m') => occursL m' (k₂ :: rest) el
      | _ => false := by
  cases h : olookup m k with
  | none => simp [occursL, resolve, h]
  | some v => cases v <;> simp [occursL, resolve, h]

theorem occursL_oinsert_node {m : Obj} {k : String} {W : Obj} {ks : List String} {el : Nat}
    (h : occursL (oinsert m k (.node W)) ks el = true) :
    (∃ k₂ rest, ks = k :: k₂ :: rest ∧ occursL W (k₂ :: rest) el = true) ∨
      occursL m ks el = true := by
  cases ks with
  | nil => rw [occursL_nil_keys] at h; exact absurd h (by simp)
  | cons k' ks' =>
    by_cases hk : k' = k
    · subst hk
      cases ks' with
      | nil =>
        simp only [occursL_single, olookup_oinsert_self] at h
        exact absurd h (by simp)
      | cons k₂ rest =>
        simp only [occursL_cons, olookup_oinsert_self] at h
        exact Or.inl ⟨k₂, rest, rfl, h⟩
    · right
      cases ks' with
      | nil =>
        simp only [occursL_single, olookup_oinsert_ne m _ hk] at h
        simpa only [occursL_single] using h
      | cons k₂ rest =>
        simp only [occursL_cons, olookup_oinsert_ne m _ hk] at h
        simpa only [occursL_cons] using h

theorem occursL_oinsert_arr {m : Obj} {k : String} {xs : List Nat} {ks : List String} {el : Nat}
    (h : occursL (oinsert m k (.arr xs)) ks el = true) :
    (ks = [k] ∧ el ∈ xs) ∨ occursL m ks el = true := by
  cases ks with
  | nil => rw [occursL_nil_keys] at h; exact absurd h (by simp)
  | cons k' ks' =>
    by_cases hk : k' = k
    · subst hk
      cases ks' with
      | nil =>
        simp only [occursL_single, olookup_oinsert_self, decide_eq_true_eq] at h
        exact Or.inl ⟨rfl, h⟩
      | cons k₂ rest =>
        simp only [occursL_cons, olookup_oinsert_self] at h
        exact absurd h (by simp)
    · right
      cases ks' with
      | nil =>
        simp only [occursL_single, olookup_oinsert_ne m _ hk] at h
        simpa only [occursL_single] using h
      | cons k₂ rest =>
        simp only [occursL_cons, olookup_oinsert_ne m _ hk] at h
        simpa only [occursL_cons] using h

theorem occursL_oerase_mono {m : Obj} {k : String} {ks : List String} {el : Nat}
    (hm : wfO m = true) (h : occursL (oerase m k) ks el = true) :
    occursL m ks el = true := by
  cases ks with
  | nil => rw [occursL_nil_keys] at h; exact absurd h (by simp)
  | cons k' ks' =>
    by_cases hk : k' = k
    · subst hk
      cases ks' with
      | nil =>
        simp only [occursL_single, olookup_oerase_self k' hm] at h
        exact absurd h (by simp)
      | cons k₂ rest =>
        simp only [occursL_cons, olookup_oerase_self k' hm] at h
        exact absurd h (by simp)
    · cases ks' with
      | nil =>
        simp only [occursL_single, olookup_oerase_ne m hk] at h
        simpa only [occursL_single] using h
      | cons k₂ rest =>
        simp only [occursL_cons, olookup_oerase_ne m hk] at h
        simpa only [occursL_cons] using h

theorem setWalk_occurs (e₀ : Nat) (keys : List String) :
    ∀ (m : Obj) (ks : List String) (el : Nat),
      occursL (setWalk m keys (Value.elem e₀)) ks el = true →
      occursL m ks el = true ∨ (ks = keys ∧ el = e₀) := by
  induction keys with
  | nil =>
    intro m ks el h
    exact Or.inl (by simpa [setWalk] using h)
  | cons k rest ih =>
    intro m ks el h
    cases rest with
    | nil =>
      replace h : occursL (oinsert m k (Value.elem e₀)) ks el = true := h
      cases ks with
      | nil => rw [occursL_nil_keys] at h; exact absurd h (by simp)
      | cons k' ks' =>
        by_cases hk : k' = k
        · subst hk
          cases ks' with
          | nil =>
            simp only [occursL_single, olookup_oinsert_self, decide_eq_true_eq] at h
            exact Or.inr ⟨rfl, h.symm⟩
          | cons k₂ ks₂ =>
            simp only [occursL_cons, olookup_oinsert_self] at h
            exact absurd h (by simp)
        · cases ks' with
          | nil =>
            simp only [occursL_single, olookup_oinsert_ne m _ hk] at h
            exact Or.inl (by simpa only [occursL_single] using h)
          | cons k₂ ks₂ =>
            simp only [occursL_cons, olookup_oinsert_ne m _ hk] at h
            exact Or.inl (by simpa only [occursL_cons] using h)
    | cons k₂ rest₂ =>
      cases holk : olookup m k with
      | none =>
        rw [show setWalk m (k :: k₂ :: rest₂) (Value.elem e₀) =
            oinsert m k (.node (setWalk [] (k₂ :: rest₂) (Value.elem e₀))) by
          simp only [setWalk, holk]] at h
        rcases occursL_oinsert_node h with ⟨k₃, rest₃, hks, hW⟩ | hm
        · rcases ih [] (k₃ :: rest₃) el hW with hfalse | ⟨hks₂, hel⟩
          · rw [show occursL ([] : Obj) (k₃ :: rest₃) el = false by
              cases rest₃ <;> simp [occursL_single, occursL_cons, olookup]] at hfalse
            exact absurd hfalse (by simp)
          · exact Or.inr ⟨by rw [hks, hks₂], hel⟩
        · exact Or.inl hm
      | some val =>
        cases val with
        | elem e =>
          rw [show setWalk m (k :: k₂ :: rest₂) (Value.elem e₀) = m by
            simp only [setWalk, holk]] at h
          exact Or.inl h
        | arr xs =>
          rw [show setWalk m (k :: k₂ :: rest₂) (Value.elem e₀) =
              oinsert m k (.node (setWalk [] (k₂ :: rest₂) (Value.elem e₀))) by
            simp only [setWalk, holk]] at h
          rcases occursL_oinsert_node h with ⟨k₃, rest₃, hks, hW⟩ | hm
          · rcases ih [] (k₃ :: rest₃) el hW with hfalse | ⟨hks₂, hel⟩
            · rw [show occursL ([] : Obj) (k₃ :: rest₃) el = false by
                cases rest₃ <;> simp [occursL_single, occursL_cons, olookup]] at hfalse
              exact absurd hfalse (by simp)
            · exact Or.inr ⟨by rw [hks, hks₂], hel⟩
          · exact Or.inl hm
        | node m' =>
          rw [show setWalk m (k :: k₂ :: rest₂) (Value.elem e₀) =
              oinsert m k (.node (setWalk m' (k₂ :: rest₂) (Value.elem e₀))) by
            simp only [setWalk, holk]] at h
          rcases occursL_oinsert_node h with ⟨k₃, rest₃, hks, hW⟩ | hm
          · rcases ih m' (k₃ :: rest₃) el hW with hm' | ⟨hks₂, hel⟩
            · left
              rw [hks]
              simp only [occursL_cons, holk]
              exact hm'
            · exact Or.inr ⟨by rw [hks, hks₂], hel⟩
          · exact Or.inl hm

theorem occursL_nil_obj (ks : List String) (el : Nat) :
    occursL ([] : Obj) ks el = false := by
  cases ks with
  | nil => exact occursL_nil_keys _ _
  | cons k ks' => cases ks' <;> simp [occursL_single, occursL_cons, olookup]

theorem appendWalk_occurs (e₀ : Nat) (keys : List String) :
    ∀ (m : Obj) (ks : List String) (el : Nat),
      occursL (appendWalk m keys e₀) ks el = true →
      occursL m ks el = true ∨ (ks = keys ∧ el = e₀) := by
  induction keys with
  | nil =>
    intro m ks el h
    exact Or.inl (by simpa [appendWalk] using h)
  | cons k rest ih =>
    intro m ks el h
    cases rest with
    | nil =>
      cases holk : olookup m k with
      | some val =>
        cases val with
        | arr xs =>
          rw [show appendWalk m [k] e₀ = oinsert m k (.arr (xs ++ [e₀])) by
            simp only [appendWalk, holk]] at h
          rcases occursL_oinsert_arr h with ⟨hks, hmem⟩ | hm
          · rcases List.mem_append.mp hmem with hx | he
            · left
              rw [hks]
              simp only [occursL_single, holk, decide_eq_true_eq]
              exact hx
            · exact Or.inr ⟨hks, by simpa using he⟩
          · exact Or.inl hm
        | elem e =>
          rw [show appendWalk m [k] e₀ = oinsert m k (.arr [e₀]) by
            simp only [appendWalk, holk]] at h
          rcases occursL_oinsert_arr h with ⟨hks, hmem⟩ | hm
          · exact Or.inr ⟨hks, by simpa using hmem⟩
          · exact Or.inl hm
        | node m' =>
          rw [show appendWalk m [k] e₀ = oinsert m k (.arr [e₀]) by
            simp only [appendWalk, holk]] at h
          rcases occursL_oinsert_arr h with ⟨hks, hmem⟩ | hm
          · exact Or.inr ⟨hks, by simpa using hmem⟩
          · exact Or.inl hm
      | none =>
        rw [show appendWalk m [k] e₀ = oinsert m k (.arr [e₀]) by
          simp only [appendWalk, holk]] at h
        rcases occursL_oinsert_arr h with ⟨hks, hmem⟩ | hm
        · exact Or.inr ⟨hks, by simpa using hmem⟩
        · exact Or.inl hm
    | cons k₂ rest₂ =>
      cases holk : olookup m k with
      | none =>
        rw [show appendWalk m (k :: k₂ :: rest₂) e₀ =
            oinsert m k (.node (appendWalk [] (k₂ :: rest₂) e₀)) by
          simp only [appendWalk, holk]] at h
        rcases occursL_oinsert_node h with ⟨k₃, rest₃, hks, hW⟩ | hm
        · rcases ih [] (k₃ :: rest₃) el hW with hfalse | ⟨hks₂, hel⟩
          · rw [occursL_nil_obj] at hfalse
            exact absurd hfalse (by simp)
          · exact Or.inr ⟨by rw [hks, hks₂], hel⟩
        · exact Or.inl hm
      | some val =>
        cases val with
        | elem e =>
          rw [show appendWalk m (k :: k₂ :: rest₂) e₀ = m by
            simp only [appendWalk, holk]] at h
          exact Or.inl h
        | arr xs =>
          rw [show appendWalk m (k :: k₂ :: rest₂) e₀ =
              oinsert m k (.node (appendWalk [] (k₂ :: rest₂) e₀)) by
            simp only [appendWalk, holk]] at h
          rcases occursL_oinsert_node h with ⟨k₃, rest₃, hks, hW⟩ | hm
          · rcases ih [] (k₃ :: rest₃) el hW with hfalse | ⟨hks₂, hel⟩
            · rw [occursL_nil_obj] at hfalse
              exact absurd hfalse (by simp)
            · exact Or.inr ⟨by rw [hks, hks₂], hel⟩
          · exact Or.inl hm
        | node m' =>
          rw [show appendWalk m (k :: k₂ :: rest₂) e₀ =
              oinsert m k (.node (appendWalk m' (k₂ :: rest₂) e₀)) by
            simp only [appendWalk, holk]] at h
          rcases occursL_oinsert_node h with ⟨k₃, rest₃, hks, hW⟩ | hm
          · rcases ih m' (k₃ :: rest₃) el hW with hm' | ⟨hks₂, hel⟩
            · left
              rw [hks]
              simp only [occursL_cons, holk]
              exact hm'
            · exact Or.inr ⟨by rw [hks, hks₂], hel⟩
          · exact Or.inl hm

theorem wfO_setWalk (v : Value) (hv : wfV v = true) (keys : List String) :
    ∀ m, wfO m = true → wfO (setWalk m keys v) = true := by
  induction keys with
  | nil => intro m hm; simpa [setWalk] using hm
  | cons k rest ih =>
    intro m hm
    cases rest with
    | nil => exact wfO_oinsert k hm hv
    | cons k₂ rest₂ =>
      have hnil : wfO (setWalk [] (k₂ :: rest₂) v) = true := ih [] (by simp [wfO])
      cases holk : olookup m k with
      | none =>
        rw [show setWalk m (k :: k₂ :: rest₂) v =
            oinsert m k (.node (setWalk [] (k₂ :: rest₂) v)) by simp only [setWalk, holk]]
        exact wfO_oinsert k hm (by simpa [wfV] using hnil)
      | some val =>
        cases val with
        | elem e =>
          rw [show setWalk m (k :: k₂ :: rest₂) v = m by simp only [setWalk, holk]]
          exact hm
        | arr xs =>
          rw [show setWalk m (k :: k₂ :: rest₂) v =
              oinsert m k (.node (setWalk [] (k₂ :: rest₂) v)) by simp only [setWalk, holk]]
          exact wfO_oinsert k hm (by simpa [wfV] using hnil)
        | node m' =>
          have hm' : wfO m' = true := by simpa [wfV] using wfV_of_olookup hm holk
          rw [show setWalk m (k :: k₂ :: rest₂) v =
              oinsert m k (.node (setWalk m' (k₂ :: rest₂) v)) by simp only [setWalk, holk]]
          exact wfO_oinsert k hm (by simpa [wfV] using ih m' hm')

theorem wfO_appendWalk (e₀ : Nat) (keys : List String) :
    ∀ m, wfO m = true → wfO (appendWalk m keys e₀) = true := by
  induction keys with
  | nil => intro m hm; simpa [appendWalk] using hm
  | cons k rest ih =>
    intro m hm
    cases rest with
    | nil =>
      cases holk : olookup m k with
      | some val =>
        cases val with
        | arr xs =>
          rw [show appendWalk m [k] e₀ = oinsert m k (.arr (xs ++ [e₀])) by
            simp only [appendWalk, holk]]
          exact wfO_oinsert k hm (by simp [wfV])
        | elem e =>
          rw [show appendWalk m [k] e₀ = oinsert m k (.arr [e₀]) by
            simp only [appendWalk, holk]]
          exact wfO_oinsert k hm (by simp [wfV])
        | node m' =>
          rw [show appendWalk m [k] e₀ = oinsert m k (.arr [e₀]) by
            simp only [appendWalk, holk]]
          exact wfO_oinsert k hm (by simp [wfV])
      | none =>
        rw [show appendWalk m [k] e₀ = oinsert m k (.arr [e₀]) by
          simp only [appendWalk, holk]]
        exact wfO_oinsert k hm (by simp [wfV])
    | cons k₂ rest₂ =>
      have hnil : wfO (appendWalk [] (k₂ :: rest₂) e₀) = true := ih [] (by simp [wfO])
      cases holk : olookup m k with
      | none =>
        rw [show appendWalk m (k :: k₂ :: rest₂) e₀ =
            oinsert m k (.node (appendWalk [] (k₂ :: rest₂) e₀)) by simp only [appendWalk, holk]]
        exact wfO_oinsert k hm (by simpa [wfV] using hnil)
      | some val =>
        cases val with
        | elem e =>
          rw [show appendWalk m (k :: k₂ :: rest₂) e₀ = m by simp only [appendWalk, holk]]
          exact hm
        | arr xs =>
          rw [show appendWalk m (k :: k₂ :: rest₂) e₀ =
              oinsert m k (.node (appendWalk [] (k₂ :: rest₂) e₀)) by
            simp only [appendWalk, holk]]
          exact wfO_oinsert k hm (by simpa [wfV] using hnil)
        | node m' =>
          have hm' : wfO m' = true := by simpa [wfV] using wfV_of_olookup hm holk
          rw [show appendWalk m (k :: k₂ :: rest₂) e₀ =
              oinsert m k (.node (appendWalk m' (k₂ :: rest₂) e₀)) by
            simp only [appendWalk, holk]]
          exact wfO_oinsert k hm (by simpa [wfV] using ih m' hm')

theorem wfO_removeWalk (el : Nat) (keys : List String) :
    ∀ m, wfO m = true → wfO (removeWalk m keys el).1 = true := by
  induction keys with
  | nil => intro m hm; simpa [removeWalk] using hm
  | cons k rest ih =>
    intro m hm
    cases rest with
    | nil =>
      cases holk : olookup m k with
      | none => simpa [removeWalk, holk] using hm
      | some val =>
        cases val with
        | elem e =>
          by_cases he : e = el
          · simpa [removeWalk, holk, he] using wfO_oerase k hm
          · simpa [removeWalk, holk, he] using hm
        | arr xs =>
          by_cases hmem : el ∈ xs
          · by_cases hnil : xs.erase el = []
            · simpa [removeWalk, holk, hmem, hnil] using wfO_oerase k hm
            · simpa [removeWalk, holk, hmem, hnil] using
                wfO_oinsert k hm (v := Value.arr (xs.erase el)) (by simp [wfV])
          · simpa [removeWalk, holk, hmem] using hm
        | node m' => simpa [removeWalk, holk] using hm
    | cons k₂ rest₂ =>
      cases holk : olookup m k with
      | none => simpa [removeWalk, holk] using hm
      | some val =>
        cases val with
        | elem e => simpa [removeWalk, holk] using hm
        | arr xs => simpa [removeWalk, holk] using hm
        | node m' =>
          have hm' : wfO m' = true := by simpa [wfV] using wfV_of_olookup hm holk
          simpa [removeWalk, holk] using
            wfO_oinsert k hm (v := Value.node (removeWalk m' (k₂ :: rest₂) el).1)
              (by simpa [wfV] using ih m' hm')

theorem removeWalk_occurs_mono (el : Nat) (keys : List String) :
    ∀ (m : Obj) (ks : List String) (el' : Nat), wfO m = true →
      occursL (removeWalk m keys el).1 ks el' = true → occursL m ks el' = true := by
  induction keys with
  | nil => intro m ks el' _ h; simpa [removeWalk] using h
  | cons k rest ih =>
    intro m ks el' hm h
    cases rest with
    | nil =>
      cases holk : olookup m k with
      | none => simpa [removeWalk, holk] using h
      | some val =>
        cases val with
        | elem e =>
          by_cases he : e = el
          · rw [show (removeWalk m [k] el).1 = oerase m k by simp [removeWalk, holk, he]] at h
            exact occursL_oerase_mono hm h
          · simpa [removeWalk, holk, he] using h
        | arr xs =>
          by_cases hmem : el ∈ xs
          · by_cases hnil : xs.erase el = []
            · rw [show (removeWalk m [k] el).1 = oerase m k by
                simp [removeWalk, holk, hmem, hnil]] at h
              exact occursL_oerase_mono hm h
            · rw [show (removeWalk m [k] el).1 = oinsert m k (.arr (xs.erase el)) by
                simp [removeWalk, holk, hmem, hnil]] at h
              rcases occursL_oinsert_arr h with ⟨hks, hmem'⟩ | hres
              · rw [hks]
                simp only [occursL_single, holk, decide_eq_true_eq]
                exact List.mem_of_mem_erase hmem'
              · exact hres
          · simpa [removeWalk, holk, hmem] using h
        | node m' => simpa [removeWalk, holk] using h
    | cons k₂ rest₂ =>
      cases holk : olookup m k with
      | none => simpa [removeWalk, holk] using h
      | some val =>
        cases val with
        | elem e => simpa [removeWalk, holk] using h
        | arr xs => simpa [removeWalk, holk] using h
        | node m' =>
          have hm' : wfO m' = true := by simpa [wfV] using wfV_of_olookup hm holk
          rw [show (removeWalk m (k :: k₂ :: rest₂) el).1 =
              oinsert m k (.node (removeWalk m' (k₂ :: rest₂) el).1) by
            simp [removeWalk, holk]] at h
          rcases occursL_oinsert_node h with ⟨k₃, rest₃, hks, hW⟩ | hres
          · rw [hks]
            simp only [occursL_cons, holk]
            exact ih m' (k₃ :: rest₃) el' hm' hW
          · exact hres

theorem removeWalk_fired (el : Nat) (keys : List String) :
    ∀ m, (removeWalk m keys el).2 = occursL m keys el := by
  induction keys with
  | nil => intro m; simp [removeWalk, occursL_nil_keys]
  | cons k rest ih =>
    intro m
    cases rest with
    | nil =>
      cases holk : olookup m k with
      | none => simp [removeWalk, holk, occursL_single]
      | some val =>
        cases val with
        | elem e =>
          by_cases he : e = el <;> simp [removeWalk, holk, he, occursL_single]
        | arr xs =>
          by_cases hmem : el ∈ xs
          · by_cases hnil : xs.erase el = [] <;>
              simp [removeWalk, holk, hmem, hnil, occursL_single]
          · simp [removeWalk, holk, hmem, occursL_single]
        | node m' => simp [removeWalk, holk, occursL_single]
    | cons k₂ rest₂ =>
      cases holk : olookup m k with
      | none => simp [removeWalk, holk, occursL_cons]
      | some val =>
        cases val with
        | elem e => simp [removeWalk, holk, occursL_cons]
        | arr xs => simp [removeWalk, holk, occursL_cons]
        | node m' => simp [removeWalk, holk, occursL_cons, ih m']

theorem noElemOnWalk_nil_obj (keys : List String) : noElemOnWalk [] keys = true := by
  cases keys with
  | nil => simp [noElemOnWalk]
  | cons k rest => cases rest <;> simp [noElemOnWalk, olookup]

theorem setWalk_resolve_self (v : Value) (keys : List String) :
    ∀ m, keys ≠ [] → noElemOnWalk m keys = true →
      resolve (setWalk m keys v) keys = some v := by
  induction keys with
  | nil => intro m hne _; exact absurd rfl hne
  | cons k rest ih =>
    intro m _ hno
    cases rest with
    | nil => simp [setWalk, resolve, olookup_oinsert_self]
    | cons k₂ rest₂ =>
      cases holk : olookup m k with
      | none =>
        rw [show setWalk m (k :: k₂ :: rest₂) v =
            oinsert m k (.node (setWalk [] (k₂ :: rest₂) v)) by simp only [setWalk, holk]]
        simp only [resolve, olookup_oinsert_self]
        exact ih [] (by simp) (noElemOnWalk_nil_obj _)
      | some val =>
        cases val with
        | elem e => simp [noElemOnWalk, holk] at hno
        | arr xs =>
          rw [show setWalk m (k :: k₂ :: rest₂) v =
              oinsert m k (.node (setWalk [] (k₂ :: rest₂) v)) by simp only [setWalk, holk]]
          simp only [resolve, olookup_oinsert_self]
          exact ih [] (by simp) (noElemOnWalk_nil_obj _)
        | node m' =>
          have hno' : noElemOnWalk m' (k₂ :: rest₂) = true := by
            simpa [noElemOnWalk, holk] using hno
          rw [show setWalk m (k :: k₂ :: rest₂) v =
              oinsert m k (.node (setWalk m' (k₂ :: rest₂) v)) by simp only [setWalk, holk]]
          simp only [resolve, olookup_oinsert_self]
          exact ih m' (by simp) hno'

theorem noElemOnWalk_setWalk (v : Value) (keys : List String) :
    ∀ m, noElemOnWalk m keys = true → noElemOnWalk (setWalk m keys v) keys = true := by
  induction keys with
  | nil => intro m _; simp [noElemOnWalk]
  | cons k rest ih =>
    intro m hno
    cases rest with
    | nil => simp [noElemOnWalk]
    | cons k₂ rest₂ =>
      cases holk : olookup m k with
      | none =>
        rw [show setWalk m (k :: k₂ :: rest₂) v =
            oinsert m k (.node (setWalk [] (k₂ :: rest₂) v)) by simp only [setWalk, holk]]
        simp only [noElemOnWalk, olookup_oinsert_self]
        exact ih [] (noElemOnWalk_nil_obj _)
      | some val =>
        cases val with
        | elem e => simp [noElemOnWalk, holk] at hno
        | arr xs =>
          rw [show setWalk m (k :: k₂ :: rest₂) v =
              oinsert m k (.node (setWalk [] (k₂ :: rest₂) v)) by simp only [setWalk, holk]]
          simp only [noElemOnWalk, olookup_oinsert_self]
          exact ih [] (noElemOnWalk_nil_obj _)
        | node m' =>
          have hno' : noElemOnWalk m' (k₂ :: rest₂) = true := by
            simpa [noElemOnWalk, holk] using hno
          rw [show setWalk m (k :: k₂ :: rest₂) v =
              oinsert m k (.node (setWalk m' (k₂ :: rest₂) v)) by simp only [setWalk, holk]]
          simp only [noElemOnWalk, olookup_oinsert_self]
          exact ih m' hno'

theorem appendWalk_resolve_arr (e₀ : Nat) (keys : List String) :
    ∀ m xs, resolve m keys = some (.arr xs) →
      resolve (appendWalk m keys e₀) keys = some (.arr (xs ++ [e₀])) := by
  induction keys with
  | nil => intro m xs h; simp [resolve] at h
  | cons k rest ih =>
    intro m xs h
    cases rest with
    | nil =>
      have holk : olookup m k = some (.arr xs) := by simpa [resolve] using h
      rw [show appendWalk m [k] e₀ = oinsert m k (.arr (xs ++ [e₀])) by
        simp only [appendWalk, holk]]
      simp [resolve, olookup_oinsert_self]
    | cons k₂ rest₂ =>
      simp only [resolve] at h
      cases holk : olookup m k with
      | none => rw [holk] at h; exact absurd h (by simp)
      | some val =>
        cases val with
        | elem e => rw [holk] at h; exact absurd h (by simp)
        | arr ys => rw [holk] at h; exact absurd h (by simp)
        | node m' =>
          rw [holk] at h
          rw [show appendWalk m (k :: k₂ :: rest₂) e₀ =
              oinsert m k (.node (appendWalk m' (k₂ :: rest₂) e₀)) by
            simp only [appendWalk, holk]]
          simp only [resolve, olookup_oinsert_self]
          exact ih m' xs h

theorem wfO_removeAll (el : Nat) (paths : List String) :
    ∀ o, wfO o = true → wfO (removeAll o el paths).1 = true := by
  induction paths with
  | nil => intro o ho; simpa [removeAll] using ho
  | cons p ps ih =>
    intro o ho
    simpa [removeAll] using ih _ (wfO_removeWalk el (pathKeys p) o ho)

theorem removeAll_occurs_mono (el : Nat) (paths : List String) :
    ∀ (o : Obj) (ks : List String) (el' : Nat), wfO o = true →
      occursL (removeAll o el paths).1 ks el' = true → occursL o ks el' = true := by
  induction paths with
  | nil => intro o ks el' _ h; simpa [removeAll] using h
  | cons p ps ih =>
    intro o ks el' ho h
    simp only [removeAll] at h
    exact removeWalk_occurs_mono el (pathKeys p) o ks el' ho
      (ih _ ks el' (wfO_removeWalk el (pathKeys p) o ho) h)

/-! ### The Path Store / Reverse Index invariant -/

theorem revPaths_rdelete_ne {r : Rev} {e e₀ : Nat} (h : e ≠ e₀) :
    revPaths (rdelete r e₀) e = revPaths r e := by
  simp [revPaths, rlookup_rdelete_ne r h]

theorem stepOp_inv (s : State) (op : Op)
    (h1 : wfO s.obj = true) (h2 : rwf s.rev = true)
    (h3 : ∀ el p, occursS s.obj p el = true → p ∈ revPaths s.rev el)
    (h4 : ∀ e ps, rlookup s.rev e = some ps → ps ≠ []) :
    wfO (stepOp s op).obj = true ∧ rwf (stepOp s op).rev = true ∧
    (∀ el p, occursS (stepOp s op).obj p el = true →
      p ∈ revPaths (stepOp s op).rev el) ∧
    (∀ e ps, rlookup (stepOp s op).rev e = some ps → ps ≠ []) := by
  cases op with
  | set p₀ e₀ =>
    refine ⟨wfO_setWalk _ (by simp [wfV]) _ _ h1, rwf_revAdd _ _ h2, ?_, revAdd_entries_ne_nil _ _ h4⟩
    intro el p hocc
    simp only [stepOp, setNestedValue, occursS] at hocc ⊢
    rcases setWalk_occurs e₀ (pathKeys p₀) s.obj (pathKeys p) el hocc with hold | ⟨hpk, hel⟩
    · exact revPaths_revAdd_mono _ _ (h3 el p hold)
    · obtain rfl : p = p₀ := pathKeys_injective hpk
      subst hel
      exact revPaths_revAdd_self_mem _ _ _
  | append p₀ e₀ =>
    refine ⟨wfO_appendWalk _ _ _ h1, rwf_revAdd _ _ h2, ?_, revAdd_entries_ne_nil _ _ h4⟩
    intro el p hocc
    simp only [stepOp, appendNestedArray, occursS] at hocc ⊢
    rcases appendWalk_occurs e₀ (pathKeys p₀) s.obj (pathKeys p) el hocc with hold | ⟨hpk, hel⟩
    · exact revPaths_revAdd_mono _ _ (h3 el p hold)
    · obtain rfl : p = p₀ := pathKeys_injective hpk
      subst hel
      exact revPaths_revAdd_self_mem _ _ _
  | remove el₀ =>
    simp only [stepOp]
    cases hrl : rlookup s.rev el₀ with
    | none =>
      simp only [removeElement, hrl]
      exact ⟨h1, h2, h3, h4⟩
    | some paths =>
      by_cases hp : paths = []
      · simp only [removeElement, hrl, hp, if_pos rfl]
        exact ⟨h1, h2, h3, h4⟩
      · simp only [removeElement, hrl, if_neg hp]
        by_cases hb : (removeAll s.obj el₀ paths).2 = true
        · by_cases hrem :
              (paths.any fun p => occursL (removeAll s.obj el₀ paths).1 (pathKeys p) el₀) = true
          · simp only [hb, hrem, if_pos rfl, if_true]
            refine ⟨wfO_removeAll _ _ _ h1, h2, ?_, h4⟩
            intro el p hocc
            simp only [occursS] at hocc ⊢
            exact h3 el p (removeAll_occurs_mono _ _ _ _ _ h1 hocc)
          · simp only [hb, hrem, if_true, if_false, Bool.false_eq_true]
            refine ⟨wfO_removeAll _ _ _ h1, rwf_rdelete _ h2, ?_,
              rdelete_entries_ne_nil _ h4 h2⟩
            intro el p hocc
            have hold : occursS s.obj p el = true :=
              removeAll_occurs_mono _ _ _ _ _ h1 hocc
            by_cases he : el = el₀
            · subst he
              have hmem : p ∈ paths := by
                have := h3 el p hold
                simpa [revPaths, hrl] using this
              exfalso
              have : (paths.any fun q => occursL (removeAll s.obj el paths).1 (pathKeys q) el)
                  = true :=
                List.any_eq_true.mpr ⟨p, hmem, hocc⟩
              exact absurd this (by simp [hrem])
            · rw [revPaths_rdelete_ne he]
              exact h3 el p hold
        · simp only [hb, if_false, Bool.false_eq_true]
          refine ⟨wfO_removeAll _ _ _ h1, h2, ?_, h4⟩
          intro el p hocc
          simp only [occursS] at hocc ⊢
          exact h3 el p (removeAll_occurs_mono _ _ _ _ _ h1 hocc)

theorem applyOps_inv (ops : List Op) :
    ∀ s : State, wfO s.obj = true → rwf s.rev = true →
    (∀ el p, occursS s.obj p el = true → p ∈ revPaths s.rev el) →
    (∀ e ps, rlookup s.rev e = some ps → ps ≠ []) →
    wfO (applyOps s ops).obj = true ∧ rwf (applyOps s ops).rev = true ∧
    (∀ el p, occursS (applyOps s ops).obj p el = true →
      p ∈ revPaths (applyOps s ops).rev el) ∧
    (∀ e ps, rlookup (applyOps s ops).rev e = some ps → ps ≠ []) := by
  induction ops with
  | nil => intro s h1 h2 h3 h4; exact ⟨h1, h2, h3, h4⟩
  | cons op rest ih =>
    intro s h1 h2 h3 h4
    obtain ⟨g1, g2, g3, g4⟩ := stepOp_inv s op h1 h2 h3 h4
    simpa [applyOps] using ih (stepOp s op) g1 g2 g3 g4

/-! ### Claim theorems -/

/-- C1, counterexample: the claimed iff between the Reverse Index and the
Path Store fails on a reachable state.  After registering element 1 and
then element 2 at the same single path "a", element 1's reverse-index
entry still lists "a" although following "a" in the Path Store reaches
element 2, not element 1 (the stale entry the spec itself admits in
section 4.3). -/
theorem c1_counterexample :
    "a" ∈ revPaths (applyOps initState [Op.set "a" 1, Op.set "a" 2]).rev 1 ∧
    occursS (applyOps initState [Op.set "a" 1, Op.set "a" 2]).obj "a" 1 = false := by
  decide

/-- C1, amended: for every state reachable by set-single, append-to-collection
and unregistration operations, one direction of the claimed invariant holds:
whenever following a path in the Path Store reaches an element as the exact
single value or inside a collection, that path appears in the element's
reverse-index entry; moreover no reverse-index entry is ever an empty list
(an element in zero paths has its entry deleted, never left empty).  The
converse direction of the claimed iff is refuted by the counterexample. -/
theorem c1_reverse_index_amended (ops : List Op) :
    (∀ el p, occursS (applyOps initState ops).obj p el = true →
      p ∈ revPaths (applyOps initState ops).rev el) ∧
    (∀ e ps, rlookup (applyOps initState ops).rev e = some ps → ps ≠ []) := by
  have h := applyOps_inv ops initState (by simp [initState, wfO]) (by simp [initState, rwf])
    (fun el p hocc => absurd hocc (by simp [initState, occursS, occursL_nil_obj]))
    (fun e ps hl => absurd hl (by simp [initState, rlookup]))
  exact ⟨h.2.2.1, h.2.2.2⟩

theorem c1_reverse_index_amended_witness :
    occursS (applyOps initState [Op.set "a" 1]).obj "a" 1 = true ∧
    "a" ∈ revPaths (applyOps initState [Op.set "a" 1]).rev 1 :=
  ⟨by decide, (c1_reverse_index_amended [Op.set "a" 1]).1 1 "a" (by decide)⟩

/-- C2, counterexample: the claimed navigation behaviour predicts that an
intermediate segment holding a value that is not an intermediate node is
overwritten with a fresh empty node.  With the store holding element 1 at
key "a", setting path "a.b" leaves the store unchanged (the source descends
into the element object because an element passes the `instanceof Object`
test), while the navigation modelled from the spec wording produces the
fresh node the claim predicts. -/
theorem c2_counterexample :
    setWalk [("a", Value.elem 1)] (pathKeys "a.b") (Value.elem 2)
      = [("a", Value.elem 1)] ∧
    specNavSet [("a", Value.elem 1)] (pathKeys "a.b") (Value.elem 2)
      = [("a", Value.node [("b", Value.elem 2)])] :=
  ⟨rfl, rfl⟩

/-- C2, amended: the navigation primitive shared by set and append walks
intermediate segments left to right; an absent or collection value is
overwritten with a fresh empty intermediate node, a node is descended into,
and an element leaf is descended into as a host object leaving the Path
Store unchanged; at the final segment, set replaces whatever was there,
and append first replaces a non-collection value with a fresh empty
collection and then appends the element.  Both walks equal the navigation
modelled from that amended wording on every input. -/
theorem c2_navigation_amended :
    (∀ m keys v, setWalk m keys v = specNavSetFix m keys v) ∧
    (∀ m keys e, appendWalk m keys e = specNavAppendFix m keys e) := by
  constructor
  · intro m keys v
    induction keys generalizing m with
    | nil => rfl
    | cons k rest ih =>
      cases rest with
      | nil => rfl
      | cons k₂ rest₂ =>
        cases holk : olookup m k with
        | none => simp [setWalk, specNavSetFix, holk, repairs, ih]
        | some val => cases val <;> simp [setWalk, specNavSetFix, holk, repairs, ih]
  · intro m keys e
    induction keys generalizing m with
    | nil => rfl
    | cons k rest ih =>
      cases rest with
      | nil =>
        cases holk : olookup m k with
        | none => simp [appendWalk, specNavAppendFix, holk]
        | some val => cases val <;> simp [appendWalk, specNavAppendFix, holk]
      | cons k₂ rest₂ =>
        cases holk : olookup m k with
        | none => simp [appendWalk, specNavAppendFix, holk, repairs, ih]
        | some val => cases val <;> simp [appendWalk, specNavAppendFix, holk, repairs, ih]

/-- C5: building with a malformed selector raises nothing (the model is a
total function over the spec-modelled non-throwing query primitive) and
behaves as if the selector matched no element: the resulting Path Store
and Reverse Index are both empty. -/
theorem c5_malformed_selector_empty (dom : List Elem) (cfg : Cfg) :
    buildRefs dom Selector.malformed cfg = initState := rfl

/-- C6: when two elements register a single value at the same path in
order E1 then E2, the stored value at that path afterwards is E2, and E1's
reverse-index entry still lists the path (left stale).  The hypothesis
rules out the walk descending into an element object at an intermediate
segment, where the store write would land on the element itself. -/
theorem c6_duplicate_single_last_wins (s : State) (p : String) (e1 e2 : Nat)
    (h : noElemOnWalk s.obj (pathKeys p) = true) :
    resolve (setNestedValue (setNestedValue s p e1) p e2).obj (pathKeys p)
      = some (Value.elem e2) ∧
    p ∈ revPaths (setNestedValue (setNestedValue s p e1) p e2).rev e1 := by
  constructor
  · simp only [setNestedValue]
    exact setWalk_resolve_self _ _ _ (pathKeys_ne_nil p) (noElemOnWalk_setWalk _ _ _ h)
  · simp only [setNestedValue]
    exact revPaths_revAdd_mono _ _ (revPaths_revAdd_self_mem _ _ _)

theorem c6_duplicate_single_last_wins_witness :
    noElemOnWalk initState.obj (pathKeys "a.b") = true ∧
    resolve (setNestedValue (setNestedValue initState "a.b" 1) "a.b" 2).obj (pathKeys "a.b")
      = some (Value.elem 2) :=
  ⟨by decide, (c6_duplicate_single_last_wins initState "a.b" 1 2 (by decide)).1⟩

/-- C9: after stop is invoked on a watcher handle, delivering any further
mutation batch leaves the shared state exactly as last synchronized (no
processing, no rollback), and stopping again is a no-op. -/
theorem c9_stop_halts_processing (w : Watcher) (batch : List Op) :
    deliverBatch (stopWatcher w) batch = stopWatcher w ∧
    stopWatcher (stopWatcher w) = stopWatcher w ∧
    (stopWatcher w).st = w.st := by
  refine ⟨?_, rfl, rfl⟩
  simp [deliverBatch, stopWatcher]

/-- C10: append-to-collection performs no membership check: registering an
element already contained in the collection at a path appends a second
occurrence (the collection holds the element at least twice), while the
element's reverse-index entry still records that path exactly once. -/
theorem c10_duplicate_append_no_membership_check (s : State) (p : String) (e : Nat)
    (xs : List Nat)
    (h1 : resolve s.obj (pathKeys p) = some (Value.arr xs)) (h2 : e ∈ xs)
    (h3 : (revPaths s.rev e).count p ≤ 1) :
    resolve (appendNestedArray s p e).obj (pathKeys p) = some (Value.arr (xs ++ [e])) ∧
    2 ≤ (xs ++ [e]).count e ∧
    (revPaths (appendNestedArray s p e).rev e).count p = 1 := by
  refine ⟨?_, ?_, ?_⟩
  · simp only [appendNestedArray]
    exact appendWalk_resolve_arr _ _ _ _ h1
  · have hc : 0 < xs.count e := List.count_pos_iff.mpr h2
    have hstep : (xs ++ [e]).count e = xs.count e + 1 := by
      simp [List.count_append]
    omega
  · simp only [appendNestedArray, revAdd, revPaths]
    by_cases hmem : p ∈ (rlookup s.rev e).getD []
    · rw [if_pos hmem]
      have hpos : 0 < ((rlookup s.rev e).getD []).count p := List.count_pos_iff.mpr hmem
      have h3' : ((rlookup s.rev e).getD []).count p ≤ 1 := by
        simpa [revPaths] using h3
      omega
    · rw [if_neg hmem, rlookup_rinsert_self, Option.getD_some, List.count_append]
      have hz : ((rlookup s.rev e).getD []).count p = 0 := by
        exact List.count_eq_zero.mpr hmem
      simp [hz]

theorem c10_duplicate_append_witness :
    resolve (appendNestedArray ⟨[("a", Value.arr [5])], [(5, ["a"])]⟩ "a" 5).obj (pathKeys "a")
      = some (Value.arr [5, 5]) := by
  have h := c10_duplicate_append_no_membership_check
    ⟨[("a", Value.arr [5])], [(5, ["a"])]⟩ "a" 5 [5] rfl (by decide) (by decide)
  simpa using h.1

/-- C3, counterexample: an element that carries the single-path attribute
with an empty value.  The claim predicts exactly one set action at the
attribute's value and no evaluation of the fallback identifier, but the
source tests JavaScript truthiness (`if (dataRef)`), so the empty value
falls through to the identifier and the classifier emits a set action at
the identifier instead. -/
theorem c3_counterexample :
    (alookup [("data-ref", "")] "data-ref").isSome = true ∧
    classify ⟨"data-ref", "data-ref-array", "id"⟩ ⟨7, [("data-ref", "")], [("id", "x")]⟩
      = [Action.set "x"] := by
  decide

/-- C3, amended: for every element and naming configuration, if the element
carries the single-path attribute with a nonempty value the classifier
emits exactly one set action at that value and does not evaluate the
fallback identifier (the result is independent of the element's
properties); the single-path attribute does not suppress the array-path
attribute, so the append actions of both fire together; an element with
neither attribute truthy but a nonempty fallback identifier yields one set
action at the identifier; otherwise no actions. -/
theorem c3_classifier_amended :
    (∀ (cfg : Cfg) (eid : Nat) (attrs props props₂ : List (String × String)) (d : String),
      truthy (alookup attrs cfg.refAttr) = some d →
      classify cfg ⟨eid, attrs, props⟩ =
        (match truthy (alookup attrs cfg.refArrayAttr) with
         | some v => (arrTokens v).map Action.append
         | none => []) ++ [Action.set d] ∧
      classify cfg ⟨eid, attrs, props₂⟩ = classify cfg ⟨eid, attrs, props⟩) ∧
    (∀ (cfg : Cfg) (eid : Nat) (attrs props : List (String × String)) (i : String),
      truthy (alookup attrs cfg.refAttr) = none →
      truthy (alookup attrs cfg.refArrayAttr) = none →
      truthy (alookup props cfg.idAttr) = some i →
      classify cfg ⟨eid, attrs, props⟩ = [Action.set i]) ∧
    (∀ (cfg : Cfg) (eid : Nat) (attrs props : List (String × String)),
      truthy (alookup attrs cfg.refAttr) = none →
      truthy (alookup attrs cfg.refArrayAttr) = none →
      truthy (alookup props cfg.idAttr) = none →
      classify cfg ⟨eid, attrs, props⟩ = []) := by
  refine ⟨?_, ?_, ?_⟩
  · intro cfg eid attrs props props₂ d hd
    exact ⟨by simp [classify, hd], by simp [classify, hd]⟩
  · intro cfg eid attrs props i h1 h2 h3
    simp [classify, h1, h2, h3]
  · intro cfg eid attrs props h1 h2 h3
    simp [classify, h1, h2, h3]

theorem c3_classifier_amended_witness :
    truthy (alookup [("data-ref", "x.y"), ("data-ref-array", "l1, l2")] "data-ref")
      = some "x.y" ∧
    classify ⟨"data-ref", "data-ref-array", "id"⟩
      ⟨3, [("data-ref", "x.y"), ("data-ref-array", "l1, l2")], [("id", "z")]⟩
      = [Action.append "l1", Action.append "l2", Action.set "x.y"] := by
  refine ⟨by decide, ?_⟩
  have h := c3_classifier_amended.1 ⟨"data-ref", "data-ref-array", "id"⟩ 3
    [("data-ref", "x.y"), ("data-ref-array", "l1, l2")] [("id", "z")] [("id", "z")]
    "x.y" (by decide)
  rw [h.1]
  decide

theorem appendsOf_map_append (ts : List String) :
    appendsOf (ts.map Action.append) = ts := by
  induction ts with
  | nil => simp [appendsOf]
  | cons t rest ih => simpa [appendsOf] using ih

theorem appendsOf_append (xs ys : List Action) :
    appendsOf (xs ++ ys) = appendsOf xs ++ appendsOf ys := by
  simp [appendsOf, List.filterMap_append]

/-- C8: the classifier parses the array-path attribute value by splitting
on commas, trimming each token and discarding empty tokens, emitting one
append action per surviving token (and none otherwise); in particular the
input "items.list,, ,items.other" yields exactly the append actions
items.list and items.other. -/
theorem c8_array_token_parsing :
    (∀ (cfg : Cfg) (el : Elem),
      appendsOf (classify cfg el) =
        match truthy (alookup el.attrs cfg.refArrayAttr) with
        | some v => arrTokens v
        | none => []) ∧
    arrTokens "items.list,, ,items.other" = ["items.list", "items.other"] := by
  constructor
  · intro cfg el
    cases ha : truthy (alookup el.attrs cfg.refArrayAttr) with
    | none =>
      cases hd : truthy (alookup el.attrs cfg.refAttr) with
      | some d => simp [classify, appendsOf, ha, hd]
      | none =>
        cases hi : truthy (alookup el.props cfg.idAttr) with
        | some i => simp [classify, appendsOf, ha, hd, hi]
        | none => simp [classify, appendsOf, ha, hd, hi]
    | some v =>
      cases hd : truthy (alookup el.attrs cfg.refAttr) with
      | some d =>
        have hcl : classify cfg el = (arrTokens v).map Action.append ++ [Action.set d] := by
          simp [classify, ha, hd]
        rw [hcl, appendsOf_append, appendsOf_map_append]
        simp [ha, appendsOf]
      | none =>
        cases hi : truthy (alookup el.props cfg.idAttr) with
        | some i =>
          have hcl : classify cfg el = (arrTokens v).map Action.append ++ [Action.set i] := by
            simp [classify, ha, hd, hi]
          rw [hcl, appendsOf_append, appendsOf_map_append]
          simp [ha, appendsOf]
        | none =>
          have hcl : classify cfg el = (arrTokens v).map Action.append := by
            simp [classify, ha, hd, hi]
          rw [hcl, appendsOf_map_append]
  · decide

/-- C4: two distinct elements registered under the same array path
"items.list"; removing the first leaves the collection holding exactly the
second and deletes the first element's reverse-index entry; removing the
second then splices the collection empty, deletes the leaf (the path no
longer resolves) and drops the second entry, so the Reverse Index is
empty.  The removal of src/index.ts (unconditional reverse-entry delete)
agrees on this scenario. -/
theorem c4_collection_partial_removal (e1 e2 : Nat) (h : e1 ≠ e2) :
    removeElement (appendNestedArray (appendNestedArray initState "items.list" e1)
        "items.list" e2) e1
      = ⟨[("items", Value.node [("list", Value.arr [e2])])], [(e2, ["items.list"])]⟩ ∧
    removeElement (removeElement (appendNestedArray (appendNestedArray initState
        "items.list" e1) "items.list" e2) e1) e2
      = ⟨[("items", Value.node [])], []⟩ ∧
    resolve (removeElement (removeElement (appendNestedArray (appendNestedArray initState
        "items.list" e1) "items.list" e2) e1) e2).obj (pathKeys "items.list") = none ∧
    removeElementBasic (appendNestedArray (appendNestedArray initState "items.list" e1)
        "items.list" e2) e1
      = ⟨[("items", Value.node [("list", Value.arr [e2])])], [(e2, ["items.list"])]⟩ ∧
    removeElementBasic ⟨[("items", Value.node [("list", Value.arr [e2])])],
        [(e2, ["items.list"])]⟩ e2
      = ⟨[("items", Value.node [])], []⟩ := by
  have hpk : pathKeys "items.list" = ["items", "list"] := rfl
  have hne : ¬ (e2 = e1) := Ne.symm h
  have hne2 : ¬ (e1 = e2) := h
  have hs2 : appendNestedArray (appendNestedArray initState "items.list" e1)
      "items.list" e2
      = ⟨[("items", Value.node [("list", Value.arr [e1, e2])])],
         [(e1, ["items.list"]), (e2, ["items.list"])]⟩ := by
    simp [appendNestedArray, initState, appendWalk, hpk, olookup, oinsert, revAdd,
      revPaths, rlookup, rinsert, hne]
  have hr1 : removeElement ⟨[("items", Value.node [("list", Value.arr [e1, e2])])],
         [(e1, ["items.list"]), (e2, ["items.list"])]⟩ e1
      = ⟨[("items", Value.node [("list", Value.arr [e2])])], [(e2, ["items.list"])]⟩ := by
    simp [removeElement, removeAll, removeWalk, hpk, olookup, oinsert, oerase, rlookup,
      rdelete, occursL, resolve, List.erase_cons, hne, hne2]
  have hr2 : removeElement ⟨[("items", Value.node [("list", Value.arr [e2])])],
        [(e2, ["items.list"])]⟩ e2
      = ⟨[("items", Value.node [])], []⟩ := by
    simp [removeElement, removeAll, removeWalk, hpk, olookup, oinsert, oerase, rlookup,
      rdelete, occursL, resolve, List.erase_cons]
  have hb1 : removeElementBasic ⟨[("items", Value.node [("list", Value.arr [e1, e2])])],
         [(e1, ["items.list"]), (e2, ["items.list"])]⟩ e1
      = ⟨[("items", Value.node [("list", Value.arr [e2])])], [(e2, ["items.list"])]⟩ := by
    simp [removeElementBasic, removeAll, removeWalk, hpk, olookup, oinsert, oerase,
      rlookup, rdelete, List.erase_cons, hne, hne2]
  have hb2 : removeElementBasic ⟨[("items", Value.node [("list", Value.arr [e2])])],
        [(e2, ["items.list"])]⟩ e2
      = ⟨[("items", Value.node [])], []⟩ := by
    simp [removeElementBasic, removeAll, removeWalk, hpk, olookup, oinsert, oerase,
      rlookup, rdelete, List.erase_cons]
  refine ⟨by rw [hs2, hr1], by rw [hs2, hr1, hr2], ?_, by rw [hs2, hb1], hb2⟩
  rw [hs2, hr1, hr2, hpk]
  rfl

theorem c4_collection_partial_removal_witness :
    removeElement (appendNestedArray (appendNestedArray initState "items.list" 1)
        "items.list" 2) 1
      = ⟨[("items", Value.node [("list", Value.arr [2])])], [(2, ["items.list"])]⟩ :=
  (c4_collection_partial_removal 1 2 (by decide)).1

/-! ### Event-variant lemmas -/

theorem mem_newKeys_not_mem (ks : List String) :
    ∀ (ps : List String) (k : String), k ∈ newKeys ks ps → k ∉ ps := by
  induction ks with
  | nil => intro ps k h; simp [newKeys] at h
  | cons k₀ rest ih =>
    intro ps k h
    simp only [newKeys] at h
    by_cases hm : k₀ ∈ ps
    · rw [if_pos hm] at h
      exact ih ps k h
    · rw [if_neg hm] at h
      rcases List.mem_cons.mp h with rfl | hrest
      · exact hm
      · intro hk
        exact ih (ps ++ [k₀]) k hrest (List.mem_append_left _ hk)

theorem newKeys_append (b : List String) (a : List String) :
    ∀ ps, newKeys (a ++ b) ps = newKeys a ps ++ newKeys b (ps ++ newKeys a ps) := by
  induction a with
  | nil => intro ps; simp [newKeys]
  | cons k rest ih =>
    intro ps
    have hl : (k :: rest) ++ b = k :: (rest ++ b) := rfl
    rw [hl]
    simp only [newKeys]
    by_cases hm : k ∈ ps
    · rw [if_pos hm, if_pos hm]
      exact ih ps
    · rw [if_neg hm, if_neg hm, ih (ps ++ [k])]
      simp [List.append_assoc]

theorem arrStepW_rev_evs (eid : Nat) (acc : State × List Ev) (k : String) :
    revPaths (arrStepW eid acc k).1.rev eid
      = revPaths acc.1.rev eid ++ newKeys [k] (revPaths acc.1.rev eid) ∧
    (arrStepW eid acc k).2
      = acc.2 ++ (newKeys [k] (revPaths acc.1.rev eid)).map (Ev.added eid) := by
  by_cases hm : k ∈ (rlookup acc.1.rev eid).getD []
  · constructor <;> simp [arrStepW, newKeys, revPaths, hm]
  · constructor <;> simp [arrStepW, newKeys, revPaths, hm, rlookup_rinsert_self]

theorem setStepW_rev_evs (eid : Nat) (acc : State × List Ev) (d : String) :
    revPaths (setStepW eid acc d).1.rev eid
      = revPaths acc.1.rev eid ++ newKeys [d] (revPaths acc.1.rev eid) ∧
    (setStepW eid acc d).2
      = acc.2 ++ (newKeys [d] (revPaths acc.1.rev eid)).map (Ev.added eid) := by
  by_cases hm : d ∈ (rlookup acc.1.rev eid).getD []
  · constructor <;> simp [setStepW, newKeys, revPaths, hm]
  · constructor <;> simp [setStepW, newKeys, revPaths, hm, rlookup_rinsert_self]

theorem arrFold_rev_evs (eid : Nat) (ks : List String) :
    ∀ (acc : State × List Ev),
      revPaths (ks.foldl (arrStepW eid) acc).1.rev eid
        = revPaths acc.1.rev eid ++ newKeys ks (revPaths acc.1.rev eid) ∧
      (ks.foldl (arrStepW eid) acc).2
        = acc.2 ++ (newKeys ks (revPaths acc.1.rev eid)).map (Ev.added eid) := by
  induction ks with
  | nil => intro acc; simp [newKeys]
  | cons k rest ih =>
    intro acc
    obtain ⟨hstep1, hstep2⟩ := arrStepW_rev_evs eid acc k
    obtain ⟨hih1, hih2⟩ := ih (arrStepW eid acc k)
    rw [List.foldl_cons] at *
    constructor
    · rw [hih1, hstep1]
      by_cases hm : k ∈ revPaths acc.1.rev eid
      · simp [newKeys, hm]
      · simp [newKeys, hm, List.append_assoc]
    · rw [hih2, hstep2, hstep1]
      by_cases hm : k ∈ revPaths acc.1.rev eid
      · simp [newKeys, hm]
      · simp [newKeys, hm]

theorem processElementW_rev_evs (cfg : Cfg) (el : Elem) (s : State) :
    ∃ regs : List String,
      revPaths (processElementW cfg el s).1.rev el.eid
        = revPaths s.rev el.eid ++ newKeys regs (revPaths s.rev el.eid) ∧
      (processElementW cfg el s).2
        = (newKeys regs (revPaths s.rev el.eid)).map (Ev.added el.eid) := by
  cases ha : truthy (alookup el.attrs cfg.refArrayAttr) with
  | none =>
    have hfold := arrFold_rev_evs el.eid [] (s, ([] : List Ev))
    cases hd : truthy (alookup el.attrs cfg.refAttr) with
    | some d =>
      refine ⟨[d], ?_, ?_⟩ <;>
        · simp only [processElementW, ha, hd, List.foldl_nil]
          simp [setStepW_rev_evs el.eid (s, ([] : List Ev)) d]
    | none =>
      cases hi : truthy (alookup el.props cfg.idAttr) with
      | some i =>
        refine ⟨[i], ?_, ?_⟩ <;>
          · simp only [processElementW, ha, hd, hi, List.foldl_nil]
            simp [setStepW_rev_evs el.eid (s, ([] : List Ev)) i]
      | none =>
        refine ⟨[], ?_, ?_⟩ <;> simp [processElementW, ha, hd, hi, newKeys]
  | some v =>
    obtain ⟨hf1, hf2⟩ := arrFold_rev_evs el.eid (arrTokens v) (s, ([] : List Ev))
    cases hd : truthy (alookup el.attrs cfg.refAttr) with
    | some d =>
      obtain ⟨hs1, hs2⟩ :=
        setStepW_rev_evs el.eid ((arrTokens v).foldl (arrStepW el.eid) (s, [])) d
      refine ⟨arrTokens v ++ [d], ?_, ?_⟩
      · simp only [processElementW, ha, hd]
        rw [hs1, hf1, newKeys_append, List.append_assoc]
      · simp only [processElementW, ha, hd]
        rw [hs2, hf2, hf1, newKeys_append, List.map_append, List.nil_append]
    | none =>
      cases hi : truthy (alookup el.props cfg.idAttr) with
      | some i =>
        obtain ⟨hs1, hs2⟩ :=
          setStepW_rev_evs el.eid ((arrTokens v).foldl (arrStepW el.eid) (s, [])) i
        refine ⟨arrTokens v ++ [i], ?_, ?_⟩
        · simp only [processElementW, ha, hd, hi]
          rw [hs1, hf1, newKeys_append, List.append_assoc]
        · simp only [processElementW, ha, hd, hi]
          rw [hs2, hf2, hf1, newKeys_append, List.map_append, List.nil_append]
      | none =>
        refine ⟨arrTokens v, ?_, ?_⟩
        · simp only [processElementW, ha, hd, hi]
          rw [hf1]
        · simp only [processElementW, ha, hd, hi]
          rw [hf2, List.nil_append]

theorem removeAllW_events (el : Nat) (ps : List String) :
    ∀ o : Obj, (removeAllW o el ps).2 = (firedSeq o ps el).map (Ev.removed el) ∧
      (removeAllW o el ps).1 = (removeAll o el ps).1 := by
  induction ps with
  | nil => intro o; simp [removeAllW, removeAll, firedSeq]
  | cons p rest ih =>
    intro o
    obtain ⟨ih2, ih1⟩ := ih (removeWalk o (pathKeys p) el).1
    constructor
    · simp only [removeAllW, firedSeq, removeWalk_fired]
      by_cases hocc : occursL o (pathKeys p) el = true
      · simp [hocc, ih2]
      · simp only [Bool.not_eq_true] at hocc
        simp [hocc, ih2]
    · simp [removeAllW, removeAll, ih1]

/-- C7: in the event-emitting variant, an added notification for an element
and a path fires exactly when the registration newly adds that pair to the
element's reverse-index entry (re-registering an already recorded pair
emits nothing); the removed notifications of an unregistration are, in
application order, exactly the recorded paths at which the store, at that
moment of the sequential pass, still holds the element; and the per-path
removal fires exactly when the leaf is the element itself or a collection
containing it, that is, when a single value is actually deleted or the
element is actually spliced out.  Notifications are produced synchronously
by the same application, in dispatch order. -/
theorem c7_notification_discipline :
    (∀ (cfg : Cfg) (el : Elem) (s : State) (k : String),
      Ev.added el.eid k ∈ (processElementW cfg el s).2 ↔
        (k ∈ revPaths (processElementW cfg el s).1.rev el.eid ∧
         k ∉ revPaths s.rev el.eid)) ∧
    (∀ (s : State) (el : Nat),
      (removeElementW s el).2
        = (firedSeq s.obj (revPaths s.rev el) el).map (Ev.removed el)) ∧
    (∀ (m : Obj) (keys : List String) (el : Nat),
      (removeWalk m keys el).2 = occursL m keys el) := by
  refine ⟨?_, ?_, fun m keys el => removeWalk_fired el keys m⟩
  · intro cfg el s k
    obtain ⟨regs, hrev, hevs⟩ := processElementW_rev_evs cfg el s
    rw [hrev, hevs]
    constructor
    · intro hmem
      have hk : k ∈ newKeys regs (revPaths s.rev el.eid) := by
        rcases List.mem_map.mp hmem with ⟨a, ha, heq⟩
        obtain ⟨-, rfl⟩ := Ev.added.inj heq
        exact ha
      exact ⟨List.mem_append_right _ hk, mem_newKeys_not_mem _ _ _ hk⟩
    · rintro ⟨hin, hout⟩
      have hk : k ∈ newKeys regs (revPaths s.rev el.eid) := by
        rcases List.mem_append.mp hin with hl | hl
        · exact absurd hl hout
        · exact hl
      exact List.mem_map.mpr ⟨k, hk, rfl⟩
  · intro s el
    cases hrl : rlookup s.rev el with
    | none => simp [removeElementW, hrl, revPaths, firedSeq]
    | some paths =>
      by_cases hp : paths = []
      · subst hp
        simp [removeElementW, hrl, revPaths, firedSeq]
      · have hev := (removeAllW_events el paths s.obj).1
        simp only [removeElementW, hrl, if_neg hp]
        simpa [revPaths, hrl] using hev

end DomRefs
